import Mathlib

/-!
Verification of the chunked transfer pipeline of the `rpl` repository.

The development shallowly embeds the core of the source:
* `src/librpl/torrent_parser.rs` — the chunk planner (`TorrentPack::chunks`);
* `src/librpl/mod.rs` — the job-queue builder (`build_queue`), `Job`, `Queue`;
* `src/librpl/qbittorrent.rs` — the per-chunk download state machine
  (`Job::download`), the deprioritization computation (`disable_others`),
  and the orchestrator loop (`leech_torrent`);
* `src/librpl/rclone.rs` — the upload monitor (`Job::upload`).

Rust `i64`/`i32` values are modelled as `Int`: all arithmetic the pipeline
performs on file sizes and chunk counters stays far below the machine-word
bounds for representable torrents, so two's-complement wrap-around is never
reachable and the idealized integers agree with the source.  Fallible Rust
functions returning `Result<_, error::Error>` are modelled with `Except`;
Rust panics (`unwrap`, `expect`) are modelled by `Option`, with `none` for
the panic.
-/

namespace Rpl

/-- The error enum of `src/librpl/error.rs` (the variants the embedded core
can produce). -/
inductive Error where
  | MaxSizeAllowedTooSmall
  | QbitTorrentErrored
  | QbitTorrentUnimplementedState
  | RcloneStderrCaptureError
  | CommandSpawningError
  deriving DecidableEq, Repr

/-- One file of a multi-file torrent, as in `lava_torrent::torrent::v1::File`:
a path and a byte length (`i64` in the source). -/
structure TorrentFile where
  path : String
  length : Int
  deriving DecidableEq, Repr

/-- `RplFile` of `src/librpl/mod.rs`: a planned file with its chunk
assignment; `chunk = -1` is the `Excluded` marker. -/
structure RplFile where
  filename : String
  length : Int
  chunk : Int
  deriving DecidableEq, Repr

/-- `Job` of `src/librpl/mod.rs`: one chunk summary. -/
structure Job where
  chunk : Int
  total_size : Int
  no_files : Int
  deriving DecidableEq, Repr

/-- `Queue` of `src/librpl/mod.rs`. -/
structure Queue where
  no_all_files : Int
  job : List Job
  deriving DecidableEq, Repr

/-- The fields of `TorrentPack` (`src/librpl/torrent_parser.rs`) consumed by
the planner, together with the projection of the `lava_torrent` metadata it
reads: `files` is `torrent.files` (absent for a single-file torrent), `name`
and `length` are `torrent.name` / `torrent.length`. -/
structure TorrentPack where
  max_size_allow : Int
  ignore_warning : Bool
  name : String
  length : Int
  files : Option (List TorrentFile)
  deriving Repr

/-- The planner loop of `TorrentPack::chunks`
(`src/librpl/torrent_parser.rs`, lines 108–189), as a structural recursion:
the state is the remaining files plus `current_chunk` and
`current_sum_size`.  The source detects the last file by
`index + 1 == files_in_pack`, which here is `rest.isEmpty`.  The produced
list holds the `HashMap` insertions in iteration order. -/
def chunksGo (ignore_warning : Bool) (max_size_allow : Int) :
    List TorrentFile → Int → Int → Except Error (List RplFile)
  | [], _, _ => .ok []
  | f :: rest, current_chunk, current_sum_size =>
    if f.length > max_size_allow then
      if ignore_warning then
        (chunksGo ignore_warning max_size_allow rest current_chunk
          current_sum_size).map (RplFile.mk f.path f.length (-1) :: ·)
      else
        .error .MaxSizeAllowedTooSmall
    else if rest.isEmpty then
      if current_sum_size + f.length > max_size_allow then
        .ok [RplFile.mk f.path f.length (current_chunk + 1)]
      else
        .ok [RplFile.mk f.path f.length current_chunk]
    else if current_sum_size + f.length ≤ max_size_allow then
      (chunksGo ignore_warning max_size_allow rest current_chunk
        (current_sum_size + f.length)).map
        (RplFile.mk f.path f.length current_chunk :: ·)
    else
      (chunksGo ignore_warning max_size_allow rest (current_chunk + 1)
        f.length).map
        (RplFile.mk f.path f.length (current_chunk + 1) :: ·)

/-- `TorrentPack::chunks` (`src/librpl/torrent_parser.rs`, lines 66–192).
The `None` branch is the single-file pack; the `Some` branch runs the loop
with `current_chunk = 1`, `current_sum_size = 0`. -/
def TorrentPack.chunks (p : TorrentPack) : Except Error (List RplFile) :=
  match p.files with
  | none =>
    if p.length > p.max_size_allow then
      if p.ignore_warning then
        .ok [RplFile.mk p.name p.length (-1)]
      else
        .error .MaxSizeAllowedTooSmall
    else
      .ok [RplFile.mk p.name p.length 1]
  | some file_vecs => chunksGo p.ignore_warning p.max_size_allow file_vecs 1 0

/-- The `datamap.get_key_value(&f.path)` lookup of `build_queue`: the
`HashMap` keyed by file path is modelled as an association list searched by
`filename`. -/
def datamapFind (datamap : List RplFile) (path : String) : Option RplFile :=
  datamap.find? (fun e => e.filename = path)

/-- The loop body of `build_queue` (`src/librpl/mod.rs`, lines 110–128) plus
the final push (line 131).  State: `current_chunk`, `total_size`, `files`,
`no_all_files`, accumulated jobs.  A failed lookup models the
`.expect("Could not find file in data map")` panic as `none`. -/
def buildQueueGo (datamap : List RplFile) :
    List TorrentFile → Int → Int → Int → Int → List Job → Option Queue
  | [], current_chunk, total_size, files, no_all_files, job =>
    some (Queue.mk no_all_files (job ++ [Job.mk current_chunk total_size files]))
  | f :: fs, current_chunk, total_size, files, no_all_files, job =>
    match datamapFind datamap f.path with
    | none => none
    | some file =>
      if file.chunk < 0 then
        buildQueueGo datamap fs current_chunk total_size files (no_all_files + 1) job
      else if file.chunk ≠ current_chunk then
        buildQueueGo datamap fs (current_chunk + 1) file.length 1 (no_all_files + 1)
          (job ++ [Job.mk current_chunk total_size files])
      else
        buildQueueGo datamap fs current_chunk (total_size + file.length)
          (files + 1) (no_all_files + 1) job

/-- `build_queue` (`src/librpl/mod.rs`, lines 103–133).  The source starts
with `torrent.files.unwrap()`: for a single-file torrent (`files = None`)
this panics, modelled by `none`. -/
def build_queue (datamap : List RplFile) (files : Option (List TorrentFile)) :
    Option Queue :=
  match files with
  | none => none
  | some fs => buildQueueGo datamap fs 1 0 0 0 []

/-- `Job::disable_others` (`src/librpl/qbittorrent.rs`, lines 581–593).  The
source walks `i` over `0..no_all_files`, pushing the string `"{i} | "` for
every index outside `[offset, offset + no_files)`, truncates the trailing
separator, and returns `None` exactly when nothing was pushed.  The
instruction string is modelled by the list of indices it renders, in the
same order. -/
def Job.disable_others (j : Job) (offset no_all_files : Int) :
    Option (List Int) :=
  let pushed := (List.range no_all_files.toNat).filterMap (fun (i : Nat) =>
    if (i : Int) < offset ∨ (i : Int) ≥ offset + j.no_files then
      some ((i : Int))
    else
      none)
  if pushed.isEmpty then none else some pushed

/-- The qBittorrent torrent states (`State` in
`src/librpl/qbittorrent.rs`, lines 35–75). -/
inductive State where
  | Error
  | MissingFiles
  | Uploading
  | PausedUP
  | QueuedUP
  | StalledUP
  | CheckingUP
  | ForcedUP
  | Allocating
  | Downloading
  | MetaDL
  | PausedDL
  | QueuedDL
  | StalledDL
  | CheckingDL
  | ForceDL
  | CheckingResumeData
  | Moving
  | Unknown
  deriving DecidableEq, Repr

/-- Terminal outcome of the download state machine. -/
inductive DownloadResult where
  | ok
  | errored
  | unimplemented
  deriving DecidableEq, Repr

/-- The polling loop of `Job::download` (`src/librpl/qbittorrent.rs`, lines
615–744).  The environment is the list of successive states returned by
`get_torrent_info`; the accumulator `retry` is the `let mut retry = 1`
counter and `resumes` counts the `resume_torrent` calls issued inside the
loop (the recovery attempts).  The `PausedDL`/`Unknown` branches consume a
second observation (`retry_current_info`); running out of modelled
observations while still polling is `none`.  The result pairs the terminal
outcome with the total number of recovery resumes. -/
def downloadGo : List State → Nat → Nat → Option (DownloadResult × Nat)
  | [], _, _ => none
  | s :: rest, retry, resumes =>
    match s with
    | .Moving => downloadGo rest retry resumes
    | .Allocating => downloadGo rest retry resumes
    | .MetaDL => downloadGo rest retry resumes
    | .PausedDL =>
      match rest with
      | [] => none
      | s2 :: rest2 =>
        match s2 with
        | .PausedDL => some (.errored, resumes + 1)
        | _ => downloadGo rest2 retry (resumes + 1)
    | .Unknown =>
      match rest with
      | [] => none
      | s2 :: rest2 =>
        match s2 with
        | .Unknown => some (.errored, resumes + 1)
        | _ => downloadGo rest2 retry (resumes + 1)
    | .Error =>
      if retry ≤ 3 then downloadGo rest (retry + 1) (resumes + 1)
      else some (.errored, resumes)
    | .MissingFiles =>
      if retry ≤ 3 then downloadGo rest (retry + 1) (resumes + 1)
      else some (.errored, resumes)
    | .Downloading => downloadGo rest retry resumes
    | .StalledDL => downloadGo rest retry resumes
    | .QueuedDL => downloadGo rest retry resumes
    | .ForceDL => downloadGo rest retry resumes
    | .CheckingDL => downloadGo rest retry resumes
    | .PausedUP => some (.ok, resumes)
    | .StalledUP => some (.ok, resumes)
    | .Uploading => some (.ok, resumes)
    | .QueuedUP => some (.ok, resumes)
    | .ForcedUP => some (.ok, resumes)
    | .CheckingUP => some (.ok, resumes)
    | .CheckingResumeData => some (.unimplemented, resumes)

/-- `Job::download` (`src/librpl/qbittorrent.rs`, lines 595–745): one
chunk's state-machine invocation starts its own counter at
`let mut retry = 1` and has issued no recovery resume yet.  (The single
`resume_torrent` before the loop, line 602, starts the job and is not a
recovery attempt.) -/
def Job.download (states : List State) : Option (DownloadResult × Nat) :=
  downloadGo states 1 0

/-- One gibibyte, for the concrete scenarios of the design document. -/
def gib : Int := 1073741824

/-- The `stats` object of one rclone JSON log line
(`RcloneStatsResp` in `src/librpl/rclone.rs`, lines 22–49), restricted to
the two fields the monitor reads: `bytes` (u64, cumulative) and `speed`
(optional).  The source compares the f64 `speed` only against `0`, so it is
modelled by an integer-valued reading. -/
structure RcloneStats where
  bytes : Nat
  speed : Option Int
  deriving DecidableEq, Repr

/-- One line of the sync tool's diagnostic stream as consumed by
`Job::upload` (`src/librpl/rclone.rs`, lines 90–104): lines without the
`"ETA"` marker are filtered out before parsing; a marker line is its decoded
`RcloneCopyResp`, of which only the optional `stats` object is read. -/
inductive RcloneLine where
  | noMarker
  | marker (stats : Option RcloneStats)
  deriving DecidableEq, Repr

/-- The spawned subprocess as the monitor observes it: the diagnostic
stream up to end-of-stream (which occurs when the subprocess exits or
closes stderr), and the process exit status.  The source never reads
`exitCode` (it spawns without `wait`). -/
structure SpawnedRclone where
  lines : List RcloneLine
  exitCode : Int
  deriving DecidableEq, Repr

/-- Environment of one `build_stderr_capture` call
(`src/librpl/rclone.rs`, lines 130–156): the `Command::spawn` may fail
(`?` on an io error), the child may lack a stderr handle, or the spawn
succeeds with a capturable stream. -/
inductive SpawnBehavior where
  | spawnFail
  | noHandle
  | spawned (proc : SpawnedRclone)
  deriving DecidableEq, Repr

/-- The progress-bar message: either the initial waiting banner or the
per-chunk upload message the source renders with the chunk number and the
job count. -/
inductive PbMessage where
  | waiting
  | uploadingChunk (chunk : Int) (no_jobs : Nat)
  deriving DecidableEq, Repr

/-- The terminal progress display the monitor drives (`indicatif` bar in
the source): current message and position.  The bar's capacity setup from
`total_size` is display-only and omitted. -/
structure ProgressBar where
  message : PbMessage
  position : Nat
  deriving DecidableEq, Repr

/-- `RcloneClient::build_stderr_capture` (`src/librpl/rclone.rs`, lines
130–156): a spawn io error becomes `CommandSpawningError` (via `#[from]`),
a missing stderr handle becomes `RcloneStderrCaptureError`. -/
def build_stderr_capture : SpawnBehavior → Except Error SpawnedRclone
  | .spawnFail => .error .CommandSpawningError
  | .noHandle => .error .RcloneStderrCaptureError
  | .spawned proc => .ok proc

/-- The line loop of `Job::upload` (`src/librpl/rclone.rs`, lines 90–104):
lines lacking the marker are skipped; a marker line with a `stats` object
and a `speed` value updates the bar only when `speed > 0`. -/
def uploadLines (chunk : Int) (no_jobs : Nat) :
    List RcloneLine → ProgressBar → ProgressBar
  | [], pb => pb
  | .noMarker :: rest, pb => uploadLines chunk no_jobs rest pb
  | .marker none :: rest, pb => uploadLines chunk no_jobs rest pb
  | .marker (some st) :: rest, pb =>
    match st.speed with
    | none => uploadLines chunk no_jobs rest pb
    | some sp =>
      if sp > 0 then
        uploadLines chunk no_jobs rest
          (ProgressBar.mk (.uploadingChunk chunk no_jobs) st.bytes)
      else
        uploadLines chunk no_jobs rest pb

/-- `Job::upload` (`src/librpl/rclone.rs`, lines 75–107): capture stderr
(propagating its two errors), drain the stream through the line loop, then
return `Ok` unconditionally — the subprocess exit status is never
examined.  The returned bar models the terminal display; the source
returns `()`. -/
def Job.upload (j : Job) (no_jobs : Nat) (env : SpawnBehavior) :
    Except Error ProgressBar :=
  match build_stderr_capture env with
  | .error e => .error e
  | .ok proc =>
    .ok (uploadLines j.chunk no_jobs proc.lines (ProgressBar.mk .waiting 0))

/-- The per-chunk stages of the orchestrator loop of `leech_torrent`
(`src/librpl/qbittorrent.rs`, lines 515–544), in source order:
`add_new_torrent`, `set_share_limit`, `set_priority` (only when
`disable_others` returns `Some`), `Job::download`, `Job::upload`,
`delete_torrent`. -/
inductive Stage where
  | submit
  | shareLimit
  | prioritize
  | download
  | upload
  | delete
  deriving DecidableEq, Repr

/-- One observable action of the orchestrator: stage `stage` of the job at
queue position `idx` was invoked. -/
structure Ev where
  idx : Nat
  stage : Stage
  deriving DecidableEq, Repr

/-- The environment's verdict for each stage call of one chunk: `true`
means the awaited call returned `Ok`, `false` that it returned an error
(which the `?` operator propagates, aborting the run). -/
structure StageOutcome where
  addOk : Bool
  shareOk : Bool
  prioOk : Bool
  dlOk : Bool
  upOk : Bool
  delOk : Bool
  deriving DecidableEq, Repr

/-- The event trace and success flag of one non-skipped iteration of the
`for job in jobs` loop (`src/librpl/qbittorrent.rs`, lines 515–544),
tabulated over the first failing stage: each `?` early-returns after its
call, so the trace is the chain of invoked stages up to and including the
first failure, and the flag is `true` only when every stage succeeded.
`hasPrio` records whether `disable_others` produced an instruction, which
decides whether `set_priority` is called at all. -/
def jobEventsAux (n : Nat) (hasPrio : Bool) (o : StageOutcome) :
    List Ev × Bool :=
  if !o.addOk then ([Ev.mk n .submit], false)
  else if !o.shareOk then ([Ev.mk n .submit, Ev.mk n .shareLimit], false)
  else if hasPrio then
    if !o.prioOk then
      ([Ev.mk n .submit, Ev.mk n .shareLimit, Ev.mk n .prioritize], false)
    else if !o.dlOk then
      ([Ev.mk n .submit, Ev.mk n .shareLimit, Ev.mk n .prioritize,
        Ev.mk n .download], false)
    else if !o.upOk then
      ([Ev.mk n .submit, Ev.mk n .shareLimit, Ev.mk n .prioritize,
        Ev.mk n .download, Ev.mk n .upload], false)
    else if !o.delOk then
      ([Ev.mk n .submit, Ev.mk n .shareLimit, Ev.mk n .prioritize,
        Ev.mk n .download, Ev.mk n .upload, Ev.mk n .delete], false)
    else
      ([Ev.mk n .submit, Ev.mk n .shareLimit, Ev.mk n .prioritize,
        Ev.mk n .download, Ev.mk n .upload, Ev.mk n .delete], true)
  else
    if !o.dlOk then
      ([Ev.mk n .submit, Ev.mk n .shareLimit, Ev.mk n .download], false)
    else if !o.upOk then
      ([Ev.mk n .submit, Ev.mk n .shareLimit, Ev.mk n .download,
        Ev.mk n .upload], false)
    else if !o.delOk then
      ([Ev.mk n .submit, Ev.mk n .shareLimit, Ev.mk n .download,
        Ev.mk n .upload, Ev.mk n .delete], false)
    else
      ([Ev.mk n .submit, Ev.mk n .shareLimit, Ev.mk n .download,
        Ev.mk n .upload, Ev.mk n .delete], true)

/-- One loop iteration's trace for the job at position `n`, with the
priority call decided by the job's actual `disable_others` computation at
the current `offset` (`src/librpl/qbittorrent.rs`, lines 525–533). -/
def jobEvents (n : Nat) (j : Job) (offset no_all_files : Int)
    (o : StageOutcome) : List Ev × Bool :=
  jobEventsAux n (j.disable_others offset no_all_files).isSome o

/-- The `for job in jobs` loop of `leech_torrent`
(`src/librpl/qbittorrent.rs`, lines 512–544): the first `skipped` jobs are
passed over (checkpoint resume, decrementing the counter and advancing
`offset` without contacting any agent); afterwards each job's stages run
in order and the first stage error aborts the whole loop (`?`), emitting
no further events. -/
def leechGo (no_all_files : Int) :
    List (Job × StageOutcome) → Nat → Nat → Int → List Ev
  | [], _, _, _ => []
  | (j, _) :: rest, k + 1, n, offset =>
    leechGo no_all_files rest k (n + 1) (offset + j.no_files)
  | (j, o) :: rest, 0, n, offset =>
    if (jobEvents n j offset no_all_files o).2 then
      (jobEvents n j offset no_all_files o).1 ++
        leechGo no_all_files rest 0 (n + 1) (offset + j.no_files)
    else
      (jobEvents n j offset no_all_files o).1

/-- The orchestrator run of `leech_torrent` over the queue's jobs,
starting with `offset = 0` and `skipped = skip`
(`src/librpl/qbittorrent.rs`, lines 512–514). -/
def leech_torrent (no_all_files : Int) (jobs : List (Job × StageOutcome))
    (skip : Nat) : List Ev :=
  leechGo no_all_files jobs skip 0 0

/-- The `offset` accumulator value when the loop reaches queue position
`k`: the initial offset plus the `no_files` of every earlier job. -/
def offsetAt (offset : Int) (jobs : List (Job × StageOutcome)) (k : Nat) :
    Int :=
  offset + ((jobs.take k).map (fun p => p.1.no_files)).sum

/-- An all-stages-succeed outcome, for concrete runs. -/
def okOutcome : StageOutcome :=
  StageOutcome.mk true true true true true true

/-- A concrete two-chunk queue paired with successful outcomes. -/
def witnessJobs : List (Job × StageOutcome) :=
  [(Job.mk 1 5 2, okOutcome), (Job.mk 2 3 1, okOutcome)]

/-- The three-file pack of the `[4GiB, 1GiB, 1GiB]` scenario. -/
def scenarioFiles : List TorrentFile :=
  [TorrentFile.mk "f1" (4 * gib), TorrentFile.mk "f2" (1 * gib),
   TorrentFile.mk "f3" (1 * gib)]

end Rpl

namespace Rpl

/-- C6: with files of sizes `[4GiB, 1GiB, 1GiB]` and a 5GiB budget, the
planner puts files 1 and 2 in chunk 1 and file 3 in chunk 2, and the queue
built from that plan has chunk 1 with `total_size = 5GiB`, `no_files = 2`
and chunk 2 with `total_size = 1GiB`, `no_files = 1`. -/
theorem chunks_scenario_4_1_1 :
    TorrentPack.chunks
        (TorrentPack.mk (5 * gib) false "pack" (6 * gib) (some scenarioFiles)) =
      .ok [RplFile.mk "f1" (4 * gib) 1, RplFile.mk "f2" (1 * gib) 1,
           RplFile.mk "f3" (1 * gib) 2] ∧
    build_queue
        [RplFile.mk "f1" (4 * gib) 1, RplFile.mk "f2" (1 * gib) 1,
         RplFile.mk "f3" (1 * gib) 2] (some scenarioFiles) =
      some (Queue.mk 3 [Job.mk 1 (5 * gib) 2, Job.mk 2 (1 * gib) 1]) := by
  constructor <;> rfl

/-- C5 counterexample: on a pack whose file list is present but empty, the
planner does not fail — it returns `Ok` with an empty plan, so the claimed
fatal `EmptyPack` error does not exist in the code. -/
theorem chunks_empty_pack_no_error :
    TorrentPack.chunks (TorrentPack.mk (5 * gib) false "empty" 0 (some [])) =
      .ok [] := by
  rfl

/-- C5 (amended): for a pack whose file list contains zero files, the
planner's plan operation succeeds with an empty plan; no error is
returned. -/
theorem chunks_empty_pack_succeeds (max_size : Int) (ignore : Bool)
    (name : String) (len : Int) :
    TorrentPack.chunks (TorrentPack.mk max_size ignore name len (some [])) =
      .ok [] := by
  rfl

/-- C9: with every file of the pack excluded (two 6GiB files, 5GiB budget,
force policy), the planner succeeds marking both files `-1`, and
`build_queue` nevertheless emits a chunk with `no_files = 0` and
`total_size = 0` — contradicting the `fileCount ≥ 1` invariant (and
`Job::info` would then divide by zero on that job). -/
theorem build_queue_emits_zero_file_chunk :
    TorrentPack.chunks
        (TorrentPack.mk (5 * gib) true "pack" (12 * gib)
          (some [TorrentFile.mk "a" (6 * gib), TorrentFile.mk "b" (6 * gib)])) =
      .ok [RplFile.mk "a" (6 * gib) (-1), RplFile.mk "b" (6 * gib) (-1)] ∧
    build_queue [RplFile.mk "a" (6 * gib) (-1), RplFile.mk "b" (6 * gib) (-1)]
        (some [TorrentFile.mk "a" (6 * gib), TorrentFile.mk "b" (6 * gib)]) =
      some (Queue.mk 2 [Job.mk 1 0 0]) := by
  constructor <;> rfl

/-- C10: for a single-file pack (`torrent.files = None`) whose file fits the
budget, the planner returns a valid one-entry plan assigning chunk 1, but
`build_queue` starts with `torrent.files.unwrap()` and panics (modelled by
`none`), so no single-file pack can be processed end to end. -/
theorem single_file_pack_planner_ok_builder_panics (max_size len : Int)
    (ignore : Bool) (name : String) (datamap : List RplFile)
    (h : ¬ len > max_size) :
    TorrentPack.chunks (TorrentPack.mk max_size ignore name len none) =
      .ok [RplFile.mk name len 1] ∧
    build_queue datamap none = none := by
  refine ⟨?_, rfl⟩
  simp [TorrentPack.chunks, h]

/-- Witness for C10 at a concrete input: a 3GiB single file with a 5GiB
budget. -/
theorem single_file_pack_planner_ok_builder_panics_witness :
    TorrentPack.chunks (TorrentPack.mk (5 * gib) false "one" (3 * gib) none) =
      .ok [RplFile.mk "one" (3 * gib) 1] ∧
    build_queue [RplFile.mk "one" (3 * gib) 1] none = none :=
  single_file_pack_planner_ok_builder_panics (5 * gib) (3 * gib) false "one"
    [RplFile.mk "one" (3 * gib) 1] (by decide)

/-- C4: against a job persistently observed in `Error` (or in
`MissingFiles`), the state machine performs exactly 3 recovery attempts and
returns the fatal errored outcome on the 4th observation, whatever comes
after; and `Job::download` starts every invocation with a fresh counter
(`retry = 1`, no recovery resume issued yet), so the bound is per chunk. -/
theorem download_three_retries_then_fatal :
    (∀ rest : List State,
      downloadGo (.Error :: .Error :: .Error :: .Error :: rest) 1 0 =
        some (.errored, 3)) ∧
    (∀ rest : List State,
      downloadGo
          (.MissingFiles :: .MissingFiles :: .MissingFiles :: .MissingFiles ::
            rest) 1 0 =
        some (.errored, 3)) ∧
    (∀ states : List State, Job.download states = downloadGo states 1 0) :=
  ⟨fun _ => rfl, fun _ => rfl, fun _ => rfl⟩

/-- Under the force policy the planner loop never fails. -/
theorem chunksGo_force_ok (max : Int) :
    ∀ (files : List TorrentFile) (cur sum : Int),
      ∃ pl, chunksGo true max files cur sum = .ok pl := by
  intro files
  induction files with
  | nil => exact fun _ _ => ⟨[], rfl⟩
  | cons g rest ih =>
    intro cur sum
    simp only [chunksGo]
    by_cases h1 : g.length > max
    · obtain ⟨pl, hpl⟩ := ih cur sum
      rw [if_pos h1]
      exact ⟨_, by rw [if_pos trivial, hpl]; rfl⟩
    · rw [if_neg h1]
      by_cases h2 : rest.isEmpty
      · rw [if_pos h2]
        by_cases h3 : sum + g.length > max
        · rw [if_pos h3]; exact ⟨_, rfl⟩
        · rw [if_neg h3]; exact ⟨_, rfl⟩
      · rw [if_neg h2]
        by_cases h3 : sum + g.length ≤ max
        · obtain ⟨pl, hpl⟩ := ih cur (sum + g.length)
          rw [if_pos h3]
          exact ⟨_, by rw [hpl]; rfl⟩
        · obtain ⟨pl, hpl⟩ := ih (cur + 1) g.length
          rw [if_neg h3]
          exact ⟨_, by rw [hpl]; rfl⟩

/-- Under the force policy, a file whose length exceeds the budget keeps its
position in the plan and is assigned the `Excluded` marker `-1`. -/
theorem chunksGo_force_get (max : Int) :
    ∀ (files : List TorrentFile) (i : Nat) (f : TorrentFile) (cur sum : Int),
      files[i]? = some f → f.length > max →
      ∃ pl, chunksGo true max files cur sum = .ok pl ∧
        pl[i]? = some (RplFile.mk f.path f.length (-1)) := by
  intro files
  induction files with
  | nil => intro i f cur sum hi; simp at hi
  | cons g rest ih =>
    intro i f cur sum hi hbig
    cases i with
    | zero =>
      have hgf : g = f := by simpa using hi
      subst hgf
      obtain ⟨pl, hpl⟩ := chunksGo_force_ok max rest cur sum
      simp only [chunksGo]
      rw [if_pos hbig, if_pos trivial, hpl]
      exact ⟨_, rfl, by simp⟩
    | succ n =>
      have hi' : rest[n]? = some f := by simpa using hi
      simp only [chunksGo]
      by_cases h1 : g.length > max
      · obtain ⟨pl, hpl, hget⟩ := ih n f cur sum hi' hbig
        rw [if_pos h1, if_pos trivial, hpl]
        exact ⟨_, rfl, by simpa using hget⟩
      · have hrest : rest ≠ [] := by
          intro h
          rw [h] at hi'
          simp at hi'
        have h2 : rest.isEmpty = false := by
          cases rest with
          | nil => exact absurd rfl hrest
          | cons a l => rfl
        rw [if_neg h1, if_neg (by simp [h2])]
        by_cases h3 : sum + g.length ≤ max
        · obtain ⟨pl, hpl, hget⟩ := ih n f cur (sum + g.length) hi' hbig
          rw [if_pos h3, hpl]
          exact ⟨_, rfl, by simpa using hget⟩
        · obtain ⟨pl, hpl, hget⟩ := ih n f (cur + 1) g.length hi' hbig
          rw [if_neg h3, hpl]
          exact ⟨_, rfl, by simpa using hget⟩

/-- Under the strict policy, any file over the budget aborts the whole plan
with `MaxSizeAllowedTooSmall`. -/
theorem chunksGo_strict_err (max : Int) :
    ∀ (files : List TorrentFile) (f : TorrentFile) (cur sum : Int),
      f ∈ files → f.length > max →
      chunksGo false max files cur sum = .error .MaxSizeAllowedTooSmall := by
  intro files
  induction files with
  | nil => intro f cur sum hf; exact absurd hf (List.not_mem_nil f)
  | cons g rest ih =>
    intro f cur sum hf hbig
    simp only [chunksGo]
    by_cases h1 : g.length > max
    · rw [if_pos h1]
      simp
    · have hf' : f ∈ rest := by
        rcases List.mem_cons.mp hf with rfl | h
        · exact absurd hbig h1
        · exact h
      have hrest : rest ≠ [] := List.ne_nil_of_mem hf'
      have h2 : rest.isEmpty = false := by
        cases rest with
        | nil => exact absurd rfl hrest
        | cons a l => rfl
      rw [if_neg h1, if_neg (by simp [h2])]
      by_cases h3 : sum + g.length ≤ max
      · rw [if_pos h3, ih f cur (sum + g.length) hf' hbig]
        rfl
      · rw [if_neg h3, ih f (cur + 1) g.length hf' hbig]
        rfl

/-- C7: for a file whose length strictly exceeds the budget, the force
policy marks exactly that file `Excluded` (`-1`) and the plan call succeeds,
while the strict policy makes the plan call return
`MaxSizeAllowedTooSmall`. -/
theorem oversized_file_policy (files : List TorrentFile)
    (max_size plen : Int) (name : String) (i : Nat) (f : TorrentFile)
    (hi : files[i]? = some f) (hbig : f.length > max_size) :
    (∃ pl,
      TorrentPack.chunks
          (TorrentPack.mk max_size true name plen (some files)) = .ok pl ∧
      pl[i]? = some (RplFile.mk f.path f.length (-1))) ∧
    TorrentPack.chunks
        (TorrentPack.mk max_size false name plen (some files)) =
      .error .MaxSizeAllowedTooSmall := by
  constructor
  · exact chunksGo_force_get max_size files i f 1 0 hi hbig
  · exact chunksGo_strict_err max_size files f 1 0
      (List.mem_iff_getElem?.mpr ⟨i, hi⟩) hbig

/-- Witness for C7: a 6GiB file against a 5GiB budget. -/
theorem oversized_file_policy_witness :
    (∃ pl,
      TorrentPack.chunks
          (TorrentPack.mk (5 * gib) true "p" (6 * gib)
            (some [TorrentFile.mk "a" (6 * gib)])) = .ok pl ∧
      pl[0]? = some (RplFile.mk "a" (6 * gib) (-1))) ∧
    TorrentPack.chunks
        (TorrentPack.mk (5 * gib) false "p" (6 * gib)
          (some [TorrentFile.mk "a" (6 * gib)])) =
      .error .MaxSizeAllowedTooSmall :=
  oversized_file_policy [TorrentFile.mk "a" (6 * gib)] (5 * gib) (6 * gib)
    "p" 0 (TorrentFile.mk "a" (6 * gib)) (by decide) (by decide)

/-- Membership in the index list pushed by `disable_others`. -/
theorem mem_disable_pushed (offset m T : Int) (i : Int) :
    (i ∈ (List.range T.toNat).filterMap (fun (a : Nat) =>
        if (a : Int) < offset ∨ (a : Int) ≥ offset + m then
          some ((a : Int))
        else
          none)) ↔
      (0 ≤ i ∧ i < T ∧ (i < offset ∨ offset + m ≤ i)) := by
  simp only [List.mem_filterMap, List.mem_range]
  constructor
  · rintro ⟨a, ha, hif⟩
    by_cases hc : ((a : Int) < offset ∨ (a : Int) ≥ offset + m)
    · rw [if_pos hc] at hif
      obtain rfl : (a : Int) = i := Option.some.inj hif
      refine ⟨by omega, by omega, ?_⟩
      rcases hc with h | h
      · exact Or.inl h
      · exact Or.inr h
    · rw [if_neg hc] at hif
      simp at hif
  · rintro ⟨h0, hiT, hout⟩
    refine ⟨i.toNat, by omega, ?_⟩
    have hcast : (i.toNat : Int) = i := by omega
    rw [hcast]
    rcases hout with h | h
    · rw [if_pos (Or.inl h)]
    · rw [if_pos (Or.inr h)]

/-- C8: for a chunk placed at `offset` with `no_files ≥ 1` inside a pack of
`T` files, `disable_others` returns `None` exactly when the chunk covers the
whole pack, and otherwise the instruction lists exactly the global indices
in `[0, T)` outside `[offset, offset + no_files)`. -/
theorem disable_others_exact (j : Job) (offset T : Int)
    (h0 : 0 ≤ offset) (h1 : 1 ≤ j.no_files) (h2 : offset + j.no_files ≤ T) :
    (j.disable_others offset T = none ↔
      (offset = 0 ∧ offset + j.no_files = T)) ∧
    (∀ l, j.disable_others offset T = some l →
      ∀ i : Int, i ∈ l ↔ (0 ≤ i ∧ i < T ∧ (i < offset ∨ offset + j.no_files ≤ i))) := by
  have hmem : ∀ i : Int,
      (i ∈ (List.range T.toNat).filterMap (fun (a : Nat) =>
          if (a : Int) < offset ∨ (a : Int) ≥ offset + j.no_files then
            some ((a : Int))
          else
            none)) ↔
        (0 ≤ i ∧ i < T ∧ (i < offset ∨ offset + j.no_files ≤ i)) :=
    fun i => mem_disable_pushed offset j.no_files T i
  have hdef : j.disable_others offset T =
      if ((List.range T.toNat).filterMap (fun (a : Nat) =>
          if (a : Int) < offset ∨ (a : Int) ≥ offset + j.no_files then
            some ((a : Int))
          else
            none)).isEmpty then
        none
      else
        some ((List.range T.toNat).filterMap (fun (a : Nat) =>
          if (a : Int) < offset ∨ (a : Int) ≥ offset + j.no_files then
            some ((a : Int))
          else
            none)) := rfl
  set L := (List.range T.toNat).filterMap (fun (a : Nat) =>
      if (a : Int) < offset ∨ (a : Int) ≥ offset + j.no_files then
        some ((a : Int))
      else
        none) with hL
  rw [hdef]
  by_cases hE : L.isEmpty
  · rw [if_pos hE]
    have hnil : L = [] := by simpa using hE
    refine ⟨⟨fun _ => ?_, fun _ => rfl⟩, fun l hl => absurd hl (by simp)⟩
    constructor
    · by_contra ho
      have h0' : (0 : Int) ∈ L := (hmem 0).mpr ⟨le_refl 0, by omega, by omega⟩
      rw [hnil] at h0'
      simp at h0'
    · by_contra hlt
      have hmem' : (offset + j.no_files) ∈ L :=
        (hmem _).mpr ⟨by omega, by omega, by omega⟩
      rw [hnil] at hmem'
      simp at hmem'
  · rw [if_neg hE]
    refine ⟨⟨fun h => absurd h (by simp), ?_⟩, fun l hl i => ?_⟩
    · rintro ⟨ho, hcov⟩
      have hnil : L = [] := by
        rw [List.eq_nil_iff_forall_not_mem]
        intro i hi
        have := (hmem i).mp hi
        omega
      rw [hnil] at hE
      simp at hE
    · obtain rfl : L = l := Option.some.inj hl
      exact hmem i

/-- Witness for C8: chunk of 2 files at offset 1 in a 4-file pack; global
index 0 is deprioritized because it lies outside `[1, 3)`. -/
theorem disable_others_exact_witness :
    (0 : Int) ∈ ([0, 3] : List Int) ↔
      (0 ≤ (0 : Int) ∧ (0 : Int) < 4 ∧
        ((0 : Int) < 1 ∨ 1 + (Job.mk 1 5 2).no_files ≤ 0)) :=
  (disable_others_exact (Job.mk 1 5 2) 1 4 (by decide) (by decide)
      (by decide)).2 [0, 3] (by rfl) 0

end Rpl

namespace Rpl

/-- Unfolding of one `build_queue` loop step once the lookup result is
known. -/
theorem buildQueueGo_cons (D : List RplFile) (f : TorrentFile)
    (fs : List TorrentFile) (cur sum cnt nall : Int) (acc : List Job)
    (e : RplFile) (hfind : datamapFind D f.path = some e) :
    buildQueueGo D (f :: fs) cur sum cnt nall acc =
      if e.chunk < 0 then
        buildQueueGo D fs cur sum cnt (nall + 1) acc
      else if e.chunk ≠ cur then
        buildQueueGo D fs (cur + 1) e.length 1 (nall + 1)
          (acc ++ [Job.mk cur sum cnt])
      else
        buildQueueGo D fs cur (sum + e.length) (cnt + 1) (nall + 1) acc := by
  rw [buildQueueGo, hfind]

/-- With pathnames unique in the datamap (the pack invariant behind the
`HashMap` keying), looking up an entry by its own filename returns exactly
that entry. -/
theorem find_self (D : List RplFile)
    (hD : (D.map RplFile.filename).Nodup) (e : RplFile) (he : e ∈ D) :
    datamapFind D e.filename = some e := by
  induction D with
  | nil => exact absurd he (List.not_mem_nil e)
  | cons d rest ih =>
    rcases List.mem_cons.mp he with rfl | he'
    · unfold datamapFind
      rw [List.find?_cons_of_pos _ (by simp)]
    · rw [List.map_cons, List.nodup_cons] at hD
      have hne : d.filename ≠ e.filename := by
        intro h
        exact hD.1 (h ▸ List.mem_map_of_mem RplFile.filename he')
      unfold datamapFind
      rw [List.find?_cons_of_neg _ (by simp [hne])]
      exact ih hD.2 he'

/-- The planner emits exactly one entry per input file, in order,
preserving the filename. -/
theorem chunksGo_map_names (max : Int) :
    ∀ (fs : List TorrentFile) (ig : Bool) (cur sum : Int) (pl : List RplFile),
      chunksGo ig max fs cur sum = .ok pl →
      pl.map RplFile.filename = fs.map TorrentFile.path := by
  intro fs
  induction fs with
  | nil =>
    intro ig cur sum pl hpl
    obtain rfl : ([] : List RplFile) = pl := by simpa [chunksGo] using hpl
    rfl
  | cons f rest ih =>
    intro ig cur sum pl hpl
    rw [chunksGo] at hpl
    by_cases h1 : f.length > max
    · rw [if_pos h1] at hpl
      cases hig : ig with
      | false => rw [hig] at hpl; simp at hpl
      | true =>
        rw [hig] at hpl
        rw [if_pos (by trivial)] at hpl
        cases hrec : chunksGo true max rest cur sum with
        | error e => rw [hrec] at hpl; simp [Except.map] at hpl
        | ok pl' =>
          rw [hrec] at hpl
          obtain rfl : RplFile.mk f.path f.length (-1) :: pl' = pl :=
            by simpa [Except.map] using hpl
          simp [ih true cur sum pl' hrec]
    · rw [if_neg h1] at hpl
      by_cases h2 : rest.isEmpty
      · have hrnil : rest = [] := by simpa using h2
        subst hrnil
        rw [if_pos (by simp)] at hpl
        by_cases h3 : sum + f.length > max
        · rw [if_pos h3] at hpl
          obtain rfl : [RplFile.mk f.path f.length (cur + 1)] = pl :=
            by simpa using hpl
          rfl
        · rw [if_neg h3] at hpl
          obtain rfl : [RplFile.mk f.path f.length cur] = pl :=
            by simpa using hpl
          rfl
      · rw [if_neg (by simpa using h2)] at hpl
        by_cases h3 : sum + f.length ≤ max
        · rw [if_pos h3] at hpl
          cases hrec : chunksGo ig max rest cur (sum + f.length) with
          | error e => rw [hrec] at hpl; simp [Except.map] at hpl
          | ok pl' =>
            rw [hrec] at hpl
            obtain rfl : RplFile.mk f.path f.length cur :: pl' = pl :=
              by simpa [Except.map] using hpl
            simp [ih ig cur (sum + f.length) pl' hrec]
        · rw [if_neg h3] at hpl
          cases hrec : chunksGo ig max rest (cur + 1) f.length with
          | error e => rw [hrec] at hpl; simp [Except.map] at hpl
          | ok pl' =>
            rw [hrec] at hpl
            obtain rfl : RplFile.mk f.path f.length (cur + 1) :: pl' = pl :=
              by simpa [Except.map] using hpl
            simp [ih ig (cur + 1) f.length pl' hrec]

/-- Invariant induction for C3: walking the builder over the planner
output, the running chunk total matches the planner running sum, so no
emitted job exceeds the budget. -/
theorem bq_bound (max : Int) :
    ∀ (fs : List TorrentFile) (D : List RplFile) (ig : Bool)
      (cur sum cnt nall : Int) (acc : List Job) (pl : List RplFile),
      chunksGo ig max fs cur sum = .ok pl →
      (∀ f ∈ fs, f.length ≤ max) →
      (D.map RplFile.filename).Nodup →
      (∀ e ∈ pl, e ∈ D) →
      1 ≤ cur →
      sum ≤ max →
      (∀ j ∈ acc, j.total_size ≤ max) →
      ∃ q, buildQueueGo D fs cur sum cnt nall acc = some q ∧
        ∀ j ∈ q.job, j.total_size ≤ max := by
  intro fs
  induction fs with
  | nil =>
    intro D ig cur sum cnt nall acc pl hpl _ _ _ _ hsum hacc
    refine ⟨_, rfl, ?_⟩
    intro j hj
    rcases List.mem_append.mp hj with h | h
    · exact hacc j h
    · obtain rfl : j = Job.mk cur sum cnt := by simpa using h
      exact hsum
  | cons f rest ih =>
    intro D ig cur sum cnt nall acc pl hpl hlen hD hplD hcur hsum hacc
    have hf : f.length ≤ max := hlen f (List.mem_cons_self f rest)
    have hnb : ¬ f.length > max := by omega
    rw [chunksGo, if_neg hnb] at hpl
    by_cases h2 : rest.isEmpty
    · have hrnil : rest = [] := by simpa using h2
      subst hrnil
      rw [if_pos (by simp)] at hpl
      by_cases h3 : sum + f.length > max
      · rw [if_pos h3] at hpl
        obtain rfl : [RplFile.mk f.path f.length (cur + 1)] = pl := by
          simpa using hpl
        have hfind := find_self D hD (RplFile.mk f.path f.length (cur + 1))
          (hplD (RplFile.mk f.path f.length (cur + 1)) (by simp))
        rw [buildQueueGo_cons D f [] cur sum cnt nall acc _ hfind]
        rw [if_neg (by simp; omega), if_pos (by simp)]
        refine ⟨_, rfl, ?_⟩
        intro j hj
        rcases List.mem_append.mp hj with h | h
        · rcases List.mem_append.mp h with ha | hb
          · exact hacc j ha
          · obtain rfl : j = Job.mk cur sum cnt := by simpa using hb
            exact hsum
        · obtain rfl :
              j = Job.mk (cur + 1) (RplFile.mk f.path f.length (cur + 1)).length 1 := by
            simpa using h
          exact hf
      · rw [if_neg h3] at hpl
        obtain rfl : [RplFile.mk f.path f.length cur] = pl := by simpa using hpl
        have hfind := find_self D hD (RplFile.mk f.path f.length cur)
          (hplD (RplFile.mk f.path f.length cur) (by simp))
        rw [buildQueueGo_cons D f [] cur sum cnt nall acc _ hfind]
        rw [if_neg (by simp; omega), if_neg (by simp)]
        refine ⟨_, rfl, ?_⟩
        intro j hj
        rcases List.mem_append.mp hj with h | h
        · exact hacc j h
        · obtain rfl :
              j = Job.mk cur (sum + (RplFile.mk f.path f.length cur).length) (cnt + 1) := by
            simpa using h
          show sum + f.length ≤ max
          omega
    · rw [if_neg (by simpa using h2)] at hpl
      by_cases h3 : sum + f.length ≤ max
      · rw [if_pos h3] at hpl
        cases hrec : chunksGo ig max rest cur (sum + f.length) with
        | error e => rw [hrec] at hpl; simp [Except.map] at hpl
        | ok pl' =>
          rw [hrec] at hpl
          obtain rfl : RplFile.mk f.path f.length cur :: pl' = pl := by
            simpa [Except.map] using hpl
          have hfind := find_self D hD (RplFile.mk f.path f.length cur)
            (hplD (RplFile.mk f.path f.length cur) (by simp))
          rw [buildQueueGo_cons D f rest cur sum cnt nall acc _ hfind]
          rw [if_neg (by simp; omega), if_neg (by simp)]
          exact ih D ig cur (sum + f.length) (cnt + 1) (nall + 1) acc pl' hrec
            (fun g hg => hlen g (List.mem_cons_of_mem f hg)) hD
            (fun e he => hplD e (List.mem_cons_of_mem _ he)) hcur h3 hacc
      · rw [if_neg h3] at hpl
        cases hrec : chunksGo ig max rest (cur + 1) f.length with
        | error e => rw [hrec] at hpl; simp [Except.map] at hpl
        | ok pl' =>
          rw [hrec] at hpl
          obtain rfl : RplFile.mk f.path f.length (cur + 1) :: pl' = pl := by
            simpa [Except.map] using hpl
          have hfind := find_self D hD (RplFile.mk f.path f.length (cur + 1))
            (hplD (RplFile.mk f.path f.length (cur + 1)) (by simp))
          rw [buildQueueGo_cons D f rest cur sum cnt nall acc _ hfind]
          rw [if_neg (by simp; omega), if_pos (by simp)]
          refine ih D ig (cur + 1) f.length 1 (nall + 1)
            (acc ++ [Job.mk cur sum cnt]) pl' hrec
            (fun g hg => hlen g (List.mem_cons_of_mem f hg)) hD
            (fun e he => hplD e (List.mem_cons_of_mem _ he)) (by omega) hf ?_
          intro j hj
          rcases List.mem_append.mp hj with h | h
          · exact hacc j h
          · obtain rfl : j = Job.mk cur sum cnt := by simpa using h
            exact hsum

/-- C3: when no single file exceeds the budget, every job of the queue
built from the plan has `total_size` at most `maxChunkBytes`; and a chunk
may equal the budget exactly — the planner closes a chunk only on strictly
exceeding it, as the 4-plus-1-against-5 run shows. -/
theorem no_chunk_exceeds_budget (files : List TorrentFile)
    (max_size plen : Int) (name : String) (ig : Bool)
    (pl : List RplFile) (q : Queue)
    (hlen : ∀ f ∈ files, f.length ≤ max_size)
    (hmax : 0 ≤ max_size)
    (hnodup : (files.map TorrentFile.path).Nodup)
    (hpl : TorrentPack.chunks
        (TorrentPack.mk max_size ig name plen (some files)) = .ok pl)
    (hq : build_queue pl (some files) = some q) :
    (∀ j ∈ q.job, j.total_size ≤ max_size) ∧
    (TorrentPack.chunks
        (TorrentPack.mk 5 false "p" 5
          (some [TorrentFile.mk "a" 4, TorrentFile.mk "b" 1])) =
      .ok [RplFile.mk "a" 4 1, RplFile.mk "b" 1 1] ∧
    build_queue [RplFile.mk "a" 4 1, RplFile.mk "b" 1 1]
        (some [TorrentFile.mk "a" 4, TorrentFile.mk "b" 1]) =
      some (Queue.mk 2 [Job.mk 1 5 2])) := by
  have hpl' : chunksGo ig max_size files 1 0 = .ok pl := hpl
  have hD : (pl.map RplFile.filename).Nodup := by
    rw [chunksGo_map_names max_size files ig 1 0 pl hpl']
    exact hnodup
  obtain ⟨q', hq', hb⟩ := bq_bound max_size files pl ig 1 0 0 0 [] pl hpl'
    hlen hD (fun e he => he) (by omega) hmax
    (fun j hj => absurd hj (List.not_mem_nil j))
  have hqq : q' = q := by
    have h := hq'.symm.trans hq
    exact Option.some.inj h
  subst hqq
  exact ⟨hb, rfl, rfl⟩

/-- Witness for C3 at the `[4GiB, 1GiB, 1GiB]` pack with a 5GiB budget. -/
theorem no_chunk_exceeds_budget_witness :
    (∀ j ∈ (Queue.mk 3 [Job.mk 1 (5 * gib) 2, Job.mk 2 (1 * gib) 1]).job,
        j.total_size ≤ 5 * gib) ∧
    (TorrentPack.chunks
        (TorrentPack.mk 5 false "p" 5
          (some [TorrentFile.mk "a" 4, TorrentFile.mk "b" 1])) =
      .ok [RplFile.mk "a" 4 1, RplFile.mk "b" 1 1] ∧
    build_queue [RplFile.mk "a" 4 1, RplFile.mk "b" 1 1]
        (some [TorrentFile.mk "a" 4, TorrentFile.mk "b" 1]) =
      some (Queue.mk 2 [Job.mk 1 5 2])) :=
  no_chunk_exceeds_budget scenarioFiles (5 * gib) (6 * gib) "pack" false
    [RplFile.mk "f1" (4 * gib) 1, RplFile.mk "f2" (1 * gib) 1,
     RplFile.mk "f3" (1 * gib) 2]
    (Queue.mk 3 [Job.mk 1 (5 * gib) 2, Job.mk 2 (1 * gib) 1])
    (by decide) (by decide) (by decide) (by rfl) (by rfl)

/-- Every event of one loop iteration carries that iteration queue
position. -/
theorem jobEvents_mem_idx (n : Nat) (j : Job) (off all : Int)
    (o : StageOutcome) (m : Nat) (s : Stage)
    (he : Ev.mk m s ∈ (jobEvents n j off all o).1) : m = n := by
  unfold jobEvents jobEventsAux at he
  split_ifs at he <;> simp [Ev.mk.injEq] at he <;> tauto

/-- An iteration that invoked the upload stage had a successful download
stage, invoked strictly before the upload. -/
theorem jobEvents_upload_dl (n : Nat) (j : Job) (off all : Int)
    (o : StageOutcome)
    (he : Ev.mk n .upload ∈ (jobEvents n j off all o).1) :
    o.dlOk = true ∧
      List.Sublist [Ev.mk n .download, Ev.mk n .upload]
        (jobEvents n j off all o).1 := by
  unfold jobEvents jobEventsAux at he ⊢
  split_ifs at he ⊢ <;> simp at he <;>
    refine ⟨by simp_all, ?_⟩ <;>
    first
    | exact List.Sublist.map (Ev.mk n)
        ((by decide) : List.Sublist [Stage.download, Stage.upload]
          [Stage.submit, Stage.shareLimit, Stage.prioritize, Stage.download,
           Stage.upload])
    | exact List.Sublist.map (Ev.mk n)
        ((by decide) : List.Sublist [Stage.download, Stage.upload]
          [Stage.submit, Stage.shareLimit, Stage.prioritize, Stage.download,
           Stage.upload, Stage.delete])
    | exact List.Sublist.map (Ev.mk n)
        ((by decide) : List.Sublist [Stage.download, Stage.upload]
          [Stage.submit, Stage.shareLimit, Stage.download, Stage.upload])
    | exact List.Sublist.map (Ev.mk n)
        ((by decide) : List.Sublist [Stage.download, Stage.upload]
          [Stage.submit, Stage.shareLimit, Stage.download, Stage.upload,
           Stage.delete])

/-- An iteration that invoked the deletion stage had a successful upload
stage, invoked strictly before the deletion. -/
theorem jobEvents_delete_up (n : Nat) (j : Job) (off all : Int)
    (o : StageOutcome)
    (he : Ev.mk n .delete ∈ (jobEvents n j off all o).1) :
    o.upOk = true ∧
      List.Sublist [Ev.mk n .upload, Ev.mk n .delete]
        (jobEvents n j off all o).1 := by
  unfold jobEvents jobEventsAux at he ⊢
  split_ifs at he ⊢ <;> simp at he <;>
    refine ⟨by simp_all, ?_⟩ <;>
    first
    | exact List.Sublist.map (Ev.mk n)
        ((by decide) : List.Sublist [Stage.upload, Stage.delete]
          [Stage.submit, Stage.shareLimit, Stage.prioritize, Stage.download,
           Stage.upload, Stage.delete])
    | exact List.Sublist.map (Ev.mk n)
        ((by decide) : List.Sublist [Stage.upload, Stage.delete]
          [Stage.submit, Stage.shareLimit, Stage.download, Stage.upload,
           Stage.delete])

/-- A fully successful iteration had a successful deletion stage, and its
deletion call is in its trace. -/
theorem jobEvents_success (n : Nat) (j : Job) (off all : Int)
    (o : StageOutcome) (h : (jobEvents n j off all o).2 = true) :
    o.delOk = true ∧
      List.Sublist [Ev.mk n .delete] (jobEvents n j off all o).1 := by
  unfold jobEvents jobEventsAux at h ⊢
  split_ifs at h ⊢ <;> simp at h <;>
    refine ⟨by simp_all, ?_⟩ <;>
    first
    | exact List.Sublist.map (Ev.mk n)
        ((by decide) : List.Sublist [Stage.delete]
          [Stage.submit, Stage.shareLimit, Stage.prioritize, Stage.download,
           Stage.upload, Stage.delete])
    | exact List.Sublist.map (Ev.mk n)
        ((by decide) : List.Sublist [Stage.delete]
          [Stage.submit, Stage.shareLimit, Stage.download, Stage.upload,
           Stage.delete])

/-- The offset accumulator before any job is the initial offset. -/
theorem offsetAt_zero (off : Int) (js : List (Job × StageOutcome)) :
    offsetAt off js 0 = off := by
  simp [offsetAt]

/-- The offset accumulator steps by the head job file count. -/
theorem offsetAt_cons (off : Int) (p : Job × StageOutcome)
    (js : List (Job × StageOutcome)) (k : Nat) :
    offsetAt off (p :: js) (k + 1) = offsetAt (off + p.1.no_files) js k := by
  simp [offsetAt]
  ring

/-- Trace membership: every emitted event belongs to some non-skipped job
at its queue position, and every earlier non-skipped iteration fully
succeeded. -/
theorem leechGo_mem (no_all : Int) :
    ∀ (js : List (Job × StageOutcome)) (skip n : Nat) (off : Int) (e : Ev),
      e ∈ leechGo no_all js skip n off →
      ∃ k j o, js.get? k = some (j, o) ∧ skip ≤ k ∧ e.idx = n + k ∧
        e ∈ (jobEvents (n + k) j (offsetAt off js k) no_all o).1 ∧
        ∀ i, skip ≤ i → i < k →
          ∃ ji oi, js.get? i = some (ji, oi) ∧
            (jobEvents (n + i) ji (offsetAt off js i) no_all oi).2 = true := by
  intro js
  induction js with
  | nil =>
    intro skip n off e he
    simp [leechGo] at he
  | cons p rest ih =>
    obtain ⟨j0, o0⟩ := p
    intro skip n off e he
    cases skip with
    | succ k =>
      have he' : e ∈ leechGo no_all rest k (n + 1) (off + j0.no_files) := he
      obtain ⟨k', j, o, hget, hsk, hidx, hseg, hprior⟩ :=
        ih k (n + 1) (off + j0.no_files) e he'
      refine ⟨k' + 1, j, o, by simpa using hget, by omega, by omega, ?_, ?_⟩
      · rw [offsetAt_cons, show n + (k' + 1) = (n + 1) + k' by omega]
        exact hseg
      · intro i hi hik
        cases i with
        | zero => omega
        | succ i' =>
          obtain ⟨ji, oi, hgi, hsi⟩ := hprior i' (by omega) (by omega)
          refine ⟨ji, oi, by simpa using hgi, ?_⟩
          rw [offsetAt_cons, show n + (i' + 1) = (n + 1) + i' by omega]
          exact hsi
    | zero =>
      by_cases hok : (jobEvents n j0 off no_all o0).2 = true
      · have he' : e ∈ (jobEvents n j0 off no_all o0).1 ++
            leechGo no_all rest 0 (n + 1) (off + j0.no_files) := by
          simpa [leechGo, hok] using he
        rcases List.mem_append.mp he' with h0 | h1
        · obtain ⟨eidx, estage⟩ := e
          have hidx : eidx = n := jobEvents_mem_idx n j0 off no_all o0 _ _ h0
          refine ⟨0, j0, o0, rfl, le_refl 0, by simpa using hidx, ?_,
            fun i h1 h2 => by omega⟩
          rw [offsetAt_zero, Nat.add_zero]
          exact h0
        · obtain ⟨k', j, o, hget, hsk, hidx, hseg, hprior⟩ :=
            ih 0 (n + 1) (off + j0.no_files) e h1
          refine ⟨k' + 1, j, o, by simpa using hget, by omega, by omega,
            ?_, ?_⟩
          · rw [offsetAt_cons, show n + (k' + 1) = (n + 1) + k' by omega]
            exact hseg
          · intro i _ hik
            cases i with
            | zero =>
              refine ⟨j0, o0, rfl, ?_⟩
              rw [offsetAt_zero, Nat.add_zero]
              exact hok
            | succ i' =>
              obtain ⟨ji, oi, hgi, hsi⟩ := hprior i' (by omega) (by omega)
              refine ⟨ji, oi, by simpa using hgi, ?_⟩
              rw [offsetAt_cons, show n + (i' + 1) = (n + 1) + i' by omega]
              exact hsi
      · have he' : e ∈ (jobEvents n j0 off no_all o0).1 := by
          simpa [leechGo, hok] using he
        obtain ⟨eidx, estage⟩ := e
        have hidx : eidx = n := jobEvents_mem_idx n j0 off no_all o0 _ _ he'
        refine ⟨0, j0, o0, rfl, le_refl 0, by simpa using hidx, ?_,
          fun i h1 h2 => by omega⟩
        rw [offsetAt_zero, Nat.add_zero]
        exact he'

/-- Segment decomposition: once every earlier non-skipped iteration
succeeded, the trace contains the iteration trace of job `m`
contiguously. -/
theorem leechGo_segment (no_all : Int) :
    ∀ (js : List (Job × StageOutcome)) (skip n : Nat) (off : Int)
      (m : Nat) (j : Job) (o : StageOutcome),
      js.get? m = some (j, o) → skip ≤ m →
      (∀ i, skip ≤ i → i < m →
        ∃ ji oi, js.get? i = some (ji, oi) ∧
          (jobEvents (n + i) ji (offsetAt off js i) no_all oi).2 = true) →
      ∃ pre post, leechGo no_all js skip n off =
        pre ++ (jobEvents (n + m) j (offsetAt off js m) no_all o).1 ++ post := by
  intro js
  induction js with
  | nil =>
    intro skip n off m j o hm
    simp at hm
  | cons p rest ih =>
    obtain ⟨j0, o0⟩ := p
    intro skip n off m j o hm hsk hprior
    cases skip with
    | succ k =>
      cases m with
      | zero => omega
      | succ m' =>
        have hm' : rest.get? m' = some (j, o) := by simpa using hm
        have hprior' : ∀ i, k ≤ i → i < m' →
            ∃ ji oi, rest.get? i = some (ji, oi) ∧
              (jobEvents ((n + 1) + i) ji
                (offsetAt (off + j0.no_files) rest i) no_all oi).2 = true := by
          intro i hi hik
          obtain ⟨ji, oi, hgi, hsi⟩ := hprior (i + 1) (by omega) (by omega)
          refine ⟨ji, oi, by simpa using hgi, ?_⟩
          rw [offsetAt_cons] at hsi
          rw [show (n + 1) + i = n + (i + 1) by omega]
          exact hsi
        obtain ⟨pre, post, heq⟩ :=
          ih k (n + 1) (off + j0.no_files) m' j o hm' (by omega) hprior'
        refine ⟨pre, post, ?_⟩
        rw [offsetAt_cons, show n + (m' + 1) = (n + 1) + m' by omega]
        exact heq
    | zero =>
      cases m with
      | zero =>
        obtain ⟨rfl, rfl⟩ : j0 = j ∧ o0 = o := by simpa using hm
        rw [offsetAt_zero, Nat.add_zero]
        by_cases hok : (jobEvents n j0 off no_all o0).2 = true
        · exact ⟨[], leechGo no_all rest 0 (n + 1) (off + j0.no_files),
            by simp [leechGo, hok]⟩
        · exact ⟨[], [], by simp [leechGo, hok]⟩
      | succ m' =>
        obtain ⟨j0', o0', hg0, hs0⟩ := hprior 0 (by omega) (by omega)
        obtain ⟨rfl, rfl⟩ : j0 = j0' ∧ o0 = o0' := by simpa using hg0
        rw [offsetAt_zero, Nat.add_zero] at hs0
        have hm' : rest.get? m' = some (j, o) := by simpa using hm
        have hprior' : ∀ i, 0 ≤ i → i < m' →
            ∃ ji oi, rest.get? i = some (ji, oi) ∧
              (jobEvents ((n + 1) + i) ji
                (offsetAt (off + j0.no_files) rest i) no_all oi).2 = true := by
          intro i hi hik
          obtain ⟨ji, oi, hgi, hsi⟩ := hprior (i + 1) (by omega) (by omega)
          refine ⟨ji, oi, by simpa using hgi, ?_⟩
          rw [offsetAt_cons] at hsi
          rw [show (n + 1) + i = n + (i + 1) by omega]
          exact hsi
        obtain ⟨pre, post, heq⟩ :=
          ih 0 (n + 1) (off + j0.no_files) m' j o hm' (by omega) hprior'
        refine ⟨(jobEvents n j0 off no_all o0).1 ++ pre, post, ?_⟩
        rw [offsetAt_cons, show n + (m' + 1) = (n + 1) + m' by omega]
        simp [leechGo, hs0, heq]

/-- Cross-chunk ordering: an event of a later queue position implies that
the earlier non-skipped job iteration fully succeeded, and that its
deletion call precedes the event in the trace. -/
theorem leechGo_delete_before (no_all : Int) :
    ∀ (js : List (Job × StageOutcome)) (skip n : Nat) (off : Int)
      (m l : Nat) (j : Job) (o : StageOutcome) (s : Stage),
      js.get? m = some (j, o) → skip ≤ m → m < l →
      Ev.mk (n + l) s ∈ leechGo no_all js skip n off →
      o.delOk = true ∧
        List.Sublist [Ev.mk (n + m) .delete, Ev.mk (n + l) s]
          (leechGo no_all js skip n off) := by
  intro js
  induction js with
  | nil =>
    intro skip n off m l j o s hm
    simp at hm
  | cons p rest ih =>
    obtain ⟨j0, o0⟩ := p
    intro skip n off m l j o s hm hsk hml hin
    cases skip with
    | succ k =>
      cases m with
      | zero => omega
      | succ m' =>
        cases l with
        | zero => omega
        | succ l' =>
          have hm' : rest.get? m' = some (j, o) := by simpa using hm
          have hin' : Ev.mk ((n + 1) + l') s ∈
              leechGo no_all rest k (n + 1) (off + j0.no_files) := by
            rw [show (n + 1) + l' = n + (l' + 1) by omega]
            exact hin
          obtain ⟨hdel, hsub⟩ :=
            ih k (n + 1) (off + j0.no_files) m' l' j o s hm' (by omega)
              (by omega) hin'
          refine ⟨hdel, ?_⟩
          rw [show n + (m' + 1) = (n + 1) + m' by omega,
            show n + (l' + 1) = (n + 1) + l' by omega]
          exact hsub
    | zero =>
      by_cases hok : (jobEvents n j0 off no_all o0).2 = true
      · have htr : leechGo no_all ((j0, o0) :: rest) 0 n off =
            (jobEvents n j0 off no_all o0).1 ++
              leechGo no_all rest 0 (n + 1) (off + j0.no_files) := by
          simp [leechGo, hok]
        cases m with
        | zero =>
          obtain ⟨rfl, rfl⟩ : j0 = j ∧ o0 = o := by simpa using hm
          cases l with
          | zero => omega
          | succ l' =>
            have hin2 : Ev.mk (n + (l' + 1)) s ∈
                leechGo no_all rest 0 (n + 1) (off + j0.no_files) := by
              rw [htr] at hin
              rcases List.mem_append.mp hin with h0 | h1
              · exfalso
                have := jobEvents_mem_idx n j0 off no_all o0 _ _ h0
                omega
              · exact h1
            obtain ⟨hdelOk, hdelsub⟩ := jobEvents_success n j0 off no_all o0 hok
            refine ⟨hdelOk, ?_⟩
            rw [htr, Nat.add_zero]
            exact List.Sublist.append hdelsub (List.singleton_sublist.mpr hin2)
        | succ m' =>
          cases l with
          | zero => omega
          | succ l' =>
            have hin2 : Ev.mk ((n + 1) + l') s ∈
                leechGo no_all rest 0 (n + 1) (off + j0.no_files) := by
              rw [htr] at hin
              rcases List.mem_append.mp hin with h0 | h1
              · exfalso
                have := jobEvents_mem_idx n j0 off no_all o0 _ _ h0
                omega
              · rw [show (n + 1) + l' = n + (l' + 1) by omega]
                exact h1
            have hm' : rest.get? m' = some (j, o) := by simpa using hm
            obtain ⟨hdel, hsub⟩ :=
              ih 0 (n + 1) (off + j0.no_files) m' l' j o s hm' (by omega)
                (by omega) hin2
            refine ⟨hdel, ?_⟩
            rw [htr, show n + (m' + 1) = (n + 1) + m' by omega,
              show n + (l' + 1) = (n + 1) + l' by omega]
            exact hsub.trans (List.sublist_append_right _ _)
      · exfalso
        have htr : leechGo no_all ((j0, o0) :: rest) 0 n off =
            (jobEvents n j0 off no_all o0).1 := by
          simp [leechGo, hok]
        rw [htr] at hin
        have := jobEvents_mem_idx n j0 off no_all o0 _ _ hin
        omega

/-- C1: in the orchestrator per-chunk loop, for every non-skipped chunk
`m`: the upload stage is invoked only after the download of chunk `m`
returned success (and after its download call, in trace order); the
deletion stage only after its upload returned success; and any work on a
later chunk only after the deletion of chunk `m` returned success — so a
stage error terminates the run with no later stage invoked. -/
theorem leech_stage_order (no_all : Int) (js : List (Job × StageOutcome))
    (skip m : Nat) (j : Job) (o : StageOutcome)
    (hm : js.get? m = some (j, o)) (hskip : skip ≤ m) :
    (Ev.mk m .upload ∈ leech_torrent no_all js skip →
      o.dlOk = true ∧
        List.Sublist [Ev.mk m .download, Ev.mk m .upload]
          (leech_torrent no_all js skip)) ∧
    (Ev.mk m .delete ∈ leech_torrent no_all js skip →
      o.upOk = true ∧
        List.Sublist [Ev.mk m .upload, Ev.mk m .delete]
          (leech_torrent no_all js skip)) ∧
    (∀ l s, m < l → Ev.mk l s ∈ leech_torrent no_all js skip →
      o.delOk = true ∧
        List.Sublist [Ev.mk m .delete, Ev.mk l s]
          (leech_torrent no_all js skip)) := by
  refine ⟨?_, ?_, ?_⟩
  · intro hin
    obtain ⟨k, j', o', hget, hsk', hidx, hseg, hprior⟩ :=
      leechGo_mem no_all js skip 0 0 (Ev.mk m .upload) hin
    obtain rfl : k = m := by simpa using hidx.symm
    obtain ⟨rfl, rfl⟩ : j' = j ∧ o' = o := by
      simpa using hget.symm.trans hm
    simp only [Nat.zero_add] at hseg hprior
    obtain ⟨hdl, hsubseg⟩ :=
      jobEvents_upload_dl _ j' _ no_all o' hseg
    obtain ⟨pre, post, heq⟩ :=
      leechGo_segment no_all js skip 0 0 _ j' o' hm hskip
        (by intro i h1 h2; simp only [Nat.zero_add]; exact hprior i h1 h2)
    simp only [Nat.zero_add] at heq
    refine ⟨hdl, ?_⟩
    show List.Sublist _ (leechGo no_all js skip 0 0)
    rw [heq, List.append_assoc]
    exact hsubseg.trans ((List.sublist_append_left _ post).trans
      (List.sublist_append_right pre _))
  · intro hin
    obtain ⟨k, j', o', hget, hsk', hidx, hseg, hprior⟩ :=
      leechGo_mem no_all js skip 0 0 (Ev.mk m .delete) hin
    obtain rfl : k = m := by simpa using hidx.symm
    obtain ⟨rfl, rfl⟩ : j' = j ∧ o' = o := by
      simpa using hget.symm.trans hm
    simp only [Nat.zero_add] at hseg hprior
    obtain ⟨hup, hsubseg⟩ :=
      jobEvents_delete_up _ j' _ no_all o' hseg
    obtain ⟨pre, post, heq⟩ :=
      leechGo_segment no_all js skip 0 0 _ j' o' hm hskip
        (by intro i h1 h2; simp only [Nat.zero_add]; exact hprior i h1 h2)
    simp only [Nat.zero_add] at heq
    refine ⟨hup, ?_⟩
    show List.Sublist _ (leechGo no_all js skip 0 0)
    rw [heq, List.append_assoc]
    exact hsubseg.trans ((List.sublist_append_left _ post).trans
      (List.sublist_append_right pre _))
  · intro l s hml hin
    obtain ⟨hdel, hsub⟩ :=
      leechGo_delete_before no_all js skip 0 0 m l j o s hm hskip hml
        (by simp only [Nat.zero_add]; exact hin)
    simp only [Nat.zero_add] at hsub
    exact ⟨hdel, hsub⟩

/-- Witness for C1: a two-chunk queue with all stages succeeding; the
submission of chunk 1 is preceded by the deletion of chunk 0. -/
theorem leech_stage_order_witness :
    okOutcome.delOk = true ∧
      List.Sublist [Ev.mk 0 .delete, Ev.mk 1 .submit]
        (leech_torrent 3 witnessJobs 0) :=
  (leech_stage_order 3 witnessJobs 0 0 (Job.mk 1 5 2) okOutcome rfl
      (le_refl 0)).2.2 1 .submit (by decide) (by decide)

/-- C2 counterexample: the monitor returns `Ok` even when the subprocess
exits with status 1 — the claimed fatal error on a non-zero exit does not
exist in the code (`upload` never inspects the exit status). -/
theorem upload_ok_on_nonzero_exit :
    (Job.mk 1 100 1).upload 1 (.spawned (SpawnedRclone.mk [] 1)) =
      .ok (ProgressBar.mk .waiting 0) := rfl

/-- C2 (amended): once the subprocess is spawned and its stderr captured,
`upload` returns `Ok` after draining the stream, for any exit status (the
status is never examined; the child is not waited on); spawn failure and
stderr-capture failure are the only fatal errors. -/
theorem upload_ignores_exit_status (j : Job) (no_jobs : Nat)
    (lines : List RcloneLine) (c1 c2 : Int) :
    j.upload no_jobs (.spawned (SpawnedRclone.mk lines c1)) =
      j.upload no_jobs (.spawned (SpawnedRclone.mk lines c2)) ∧
    (∃ pb, j.upload no_jobs (.spawned (SpawnedRclone.mk lines c1)) = .ok pb) ∧
    j.upload no_jobs .spawnFail = .error .CommandSpawningError ∧
    j.upload no_jobs .noHandle = .error .RcloneStderrCaptureError :=
  ⟨rfl, ⟨_, rfl⟩, rfl, rfl⟩

end Rpl
